import Mathlib

/-!
Shallow embedding of `btc_backtest_intraday_open_breakout2_2tradeperday.py`.

Prices are rationals (the Python floats are used only through exact copies
and the comparisons `<=`, `>=`; all equalities claimed by the spec are
equalities between values produced by the same arithmetic expressions, so ℚ
is a faithful exact model).  A pandas timestamp is modelled as a calendar
day (`Nat`) together with a time-of-day (`Nat`, e.g. minutes): datetime
order is lexicographic in (day, time-of-day).  A data frame of candles is a
`List Candle`; `sort_index` is a sort by timestamp, `groupby("trade_date")`
on the time-sorted frame is grouping of adjacent equal days, and
`between_time(start, end)` keeps rows whose time-of-day lies in the closed
window (pandas default is inclusive on both ends).
-/

structure Timestamp where
  day : Nat
  tod : Nat
deriving DecidableEq, Repr

/-- `a ≤ b` for timestamps: lexicographic in (calendar day, time of day). -/
def tsle (a b : Timestamp) : Prop :=
  a.day < b.day ∨ (a.day = b.day ∧ a.tod ≤ b.tod)

/-- `a < b` for timestamps. -/
def tslt (a b : Timestamp) : Prop :=
  a.day < b.day ∨ (a.day = b.day ∧ a.tod < b.tod)

instance (a b : Timestamp) : Decidable (tsle a b) :=
  inferInstanceAs (Decidable (a.day < b.day ∨ (a.day = b.day ∧ a.tod ≤ b.tod)))

instance (a b : Timestamp) : Decidable (tslt a b) :=
  inferInstanceAs (Decidable (a.day < b.day ∨ (a.day = b.day ∧ a.tod < b.tod)))

/-- One price bar of the input frame: columns `open, high, low, close` and
the `time` index.  (`open` is a Lean keyword, hence the field name `open_`.) -/
structure Candle where
  time : Timestamp
  open_ : ℚ
  high : ℚ
  low : ℚ
  close : ℚ
deriving DecidableEq, Repr

inductive TradeType where
  | LONG : TradeType
  | SHORT : TradeType
deriving DecidableEq, Repr

def opposite : TradeType → TradeType
  | .LONG => .SHORT
  | .SHORT => .LONG

/-- One row of the trades table: columns
Date, Type, Entry, Exit, PnL, StopHit, EntryTime, ExitTime.
(`Type` is a Lean keyword, hence the field name `ttype`; the Date column
holds the session's calendar day.) -/
structure Trade where
  Date : Nat
  ttype : TradeType
  Entry : ℚ
  Exit : ℚ
  PnL : ℚ
  StopHit : Bool
  EntryTime : Timestamp
  ExitTime : Timestamp
deriving DecidableEq, Repr

/-- The metrics dictionary returned next to the trades table. -/
structure Metrics where
  Total_PnL : ℚ
  Max_Drawdown : ℚ
  Total_Trades : Nat
  Win_Rate_pct : ℚ
  Avg_PnL : ℚ
deriving DecidableEq, Repr

/-- The metrics returned on the `trades_df.empty` path (lines 89 and 216). -/
def emptyMetrics : Metrics :=
  { Total_PnL := 0, Max_Drawdown := 0, Total_Trades := 0
    Win_Rate_pct := 0, Avg_PnL := 0 }

/-! ### Generic list machinery: a stable insertion sort -/

def insertLe {α : Type} (le : α → α → Bool) (a : α) : List α → List α
  | [] => [a]
  | b :: bs => if le a b then a :: b :: bs else b :: insertLe le a bs

def sortByB {α : Type} (le : α → α → Bool) : List α → List α
  | [] => []
  | a :: as => insertLe le a (sortByB le as)

/-! ### The data pipeline

`df = hist_df.copy(); df.columns = lower; df["time"] = to_datetime; df =
df.set_index("time").sort_index(); df["trade_date"] = df.index.date` —
modelled as sorting the candle list by timestamp and grouping adjacent
candles of equal calendar day (the list being time-sorted, this is exactly
`groupby("trade_date")`, whose keys come out in ascending order). -/

def sortByTime (l : List Candle) : List Candle :=
  sortByB (fun a b => decide (tsle a.time b.time)) l

/-- `day_data.between_time(start_time, end_time)`: keep candles whose
time-of-day lies in the closed window (pandas includes both ends). -/
def betweenTime (start_time end_time : Nat) (l : List Candle) : List Candle :=
  l.filter (fun c => decide (start_time ≤ c.time.tod) && decide (c.time.tod ≤ end_time))

/-- `df.groupby("trade_date")` on the time-sorted frame: group adjacent
candles with equal calendar day, keeping row order inside each group. -/
def groupByDay : List Candle → List (Nat × List Candle)
  | [] => []
  | c :: rest =>
    match groupByDay rest with
    | [] => [(c.time.day, [c])]
    | (d, g) :: gs =>
      if c.time.day = d then (d, c :: g) :: gs
      else (c.time.day, [c]) :: (d, g) :: gs

/-- The per-day sessions the loop `for day, day_data in df.groupby(...)`
actually simulates: each day restricted by `between_time`, empty days
skipped (`if day_data.empty: continue`). -/
def sessions (hist_df : List Candle) (start_time end_time : Nat) :
    List (Nat × List Candle) :=
  ((groupByDay (sortByTime hist_df)).map
      (fun p => (p.1, betweenTime start_time end_time p.2))).filter
    (fun p => !p.2.isEmpty)

/-- Result of the first-trigger scan: `trigger_ts`, `trade_type`, `entry`. -/
structure TrigInfo where
  ts : Timestamp
  ty : TradeType
  entry : ℚ
deriving DecidableEq, Repr

/-- Result of trade management: `exit_price`, `exit_ts`, `stop_hit`. -/
structure ExitInfo where
  price : ℚ
  ts : Timestamp
  hit : Bool
deriving DecidableEq, Repr

/-- The first-trigger loop (lines 39–51 / 149–157): the first candle with
`high >= long_trigger` fires a LONG at `long_trigger`; otherwise (elif) the
first with `low <= short_trigger` fires a SHORT at `short_trigger`. -/
def firstTrigger (long_trigger short_trigger : ℚ) : List Candle → Option TrigInfo
  | [] => none
  | c :: cs =>
    if c.high ≥ long_trigger then some ⟨c.time, .LONG, long_trigger⟩
    else if c.low ≤ short_trigger then some ⟨c.time, .SHORT, short_trigger⟩
    else firstTrigger long_trigger short_trigger cs

/-- The stop level set on entry: LONG stop is `entry*(1 - sl_pct)`, SHORT
stop is `entry*(1 + sl_pct)` (lines 44/50, 152/156, 190). -/
def stopLevel (ty : TradeType) (entry sl_pct : ℚ) : ℚ :=
  match ty with
  | .LONG => entry * (1 - sl_pct)
  | .SHORT => entry * (1 + sl_pct)

/-- `day_data.loc[trigger_ts:].iloc[1:]`: on the time-sorted session, the
`.loc` slice starts at the first row whose timestamp is not before
`trigger_ts`, and `.iloc[1:]` then drops one row. -/
def afterTs (ts : Timestamp) (day_data : List Candle) : List Candle :=
  (day_data.dropWhile (fun c => decide (tslt c.time ts))).drop 1

/-- The stop-scan loop (lines 60–68 / 166–174 / 195–203): for LONG the
first candle with `low <= sl` exits at `sl`; for SHORT the first candle
with `high >= sl` exits at `sl`. -/
def findStop (trade_type : TradeType) (sl : ℚ) : List Candle → Option (ℚ × Timestamp)
  | [] => none
  | c :: cs =>
    match trade_type with
    | .LONG =>
      if c.low ≤ sl then some (sl, c.time) else findStop trade_type sl cs
    | .SHORT =>
      if c.high ≥ sl then some (sl, c.time) else findStop trade_type sl cs

/-- Trade management: scan `day_data.loc[trigger_ts:].iloc[1:]` for the
stop; if none is found, force-close at the session's last candle's close
and the last timestamp (lines 56–72 / 163–177 / 192–206). -/
def manageExit (trade_type : TradeType) (sl : ℚ) (trigger_ts : Timestamp)
    (day_data : List Candle) (lastC : Candle) : ExitInfo :=
  match findStop trade_type sl (afterTs trigger_ts day_data) with
  | some (p, ts) => ⟨p, ts, true⟩
  | none => ⟨lastC.close, lastC.time, false⟩

/-- The record appended for the (first) trade of a day, given the trigger
scan's result (lines 74–85 / 179–183). -/
def trade1Of (sl_pct : ℚ) (day : Nat) (day_data : List Candle) (lastC : Candle)
    (tg : TrigInfo) : Trade :=
  let sl := stopLevel tg.ty tg.entry sl_pct
  let e := manageExit tg.ty sl tg.ts day_data lastC
  { Date := day, ttype := tg.ty, Entry := tg.entry, Exit := e.price
    PnL := if tg.ty = .LONG then e.price - tg.entry else tg.entry - e.price
    StopHit := e.hit, EntryTime := tg.ts, ExitTime := e.ts }

/-- The second ("reversal") trade of `backtest_intraday_open_breakout2`
(lines 186–211): opposite direction, entered at the first trade's exit
price and exit timestamp, managed by the same stop-scan rule. -/
def reversalTrade (sl_pct : ℚ) (day : Nat) (trade_type : TradeType)
    (exit_price : ℚ) (exit_ts : Timestamp) (day_data : List Candle)
    (lastC : Candle) : Trade :=
  let opposite_type := opposite trade_type
  let opp_entry := exit_price
  let opp_trigger_ts := exit_ts
  let opp_sl := if opposite_type = .LONG then opp_entry * (1 - sl_pct)
                else opp_entry * (1 + sl_pct)
  let e := manageExit opposite_type opp_sl opp_trigger_ts day_data lastC
  { Date := day, ttype := opposite_type, Entry := opp_entry, Exit := e.price
    PnL := if opposite_type = .LONG then e.price - opp_entry else opp_entry - e.price
    StopHit := e.hit, EntryTime := opp_trigger_ts, ExitTime := e.ts }

/-- One day of `backtest_intraday_open_breakout` (lines 31–85): triggers
are `day_open*(1±pct)` from the first candle's open; at most one trade. -/
def simulateDay1 (pct sl_pct : ℚ) (day : Nat) : List Candle → List Trade
  | [] => []
  | f :: rest =>
    let day_data := f :: rest
    let lastC := List.getLastD rest f
    let day_open := f.open_
    let long_trigger := day_open * (1 + pct)
    let short_trigger := day_open * (1 - pct)
    match firstTrigger long_trigger short_trigger day_data with
    | none => []
    | some tg => [trade1Of sl_pct day day_data lastC tg]

/-- One day of `backtest_intraday_open_breakout2` (lines 140–212): as
`simulateDay1`, then — only if the first trade's stop was hit and the
trade counter is below 2 — one reversal trade. -/
def simulateDay2 (pct sl_pct : ℚ) (day : Nat) : List Candle → List Trade
  | [] => []
  | f :: rest =>
    let day_data := f :: rest
    let lastC := List.getLastD rest f
    let day_open := f.open_
    let long_trigger := day_open * (1 + pct)
    let short_trigger := day_open * (1 - pct)
    match firstTrigger long_trigger short_trigger day_data with
    | none => []
    | some tg =>
      let t1 := trade1Of sl_pct day day_data lastC tg
      let trade_count := 1
      if t1.StopHit = true ∧ trade_count < 2 then
        [t1, reversalTrade sl_pct day t1.ttype t1.Exit t1.ExitTime day_data lastC]
      else [t1]

/-! ### The metrics block (lines 92–109 / 219–234) -/

def listSum (l : List ℚ) : ℚ := l.foldl (fun a b => a + b) 0

/-- `Series.cumsum()`. -/
def cumsumAux (acc : ℚ) : List ℚ → List ℚ
  | [] => []
  | x :: xs => (acc + x) :: cumsumAux (acc + x) xs

def cumsum (l : List ℚ) : List ℚ := cumsumAux 0 l

/-- `Series.cummax()`. -/
def cummaxAux (m : ℚ) : List ℚ → List ℚ
  | [] => []
  | x :: xs => max m x :: cummaxAux (max m x) xs

def cummax : List ℚ → List ℚ
  | [] => []
  | x :: xs => x :: cummaxAux x xs

/-- `Series.min()`; the code only reaches it on a nonempty series, so the
value on `[]` is immaterial (taken as 0 here). -/
def listMin : List ℚ → ℚ
  | [] => 0
  | x :: xs => xs.foldl (fun a b => min a b) x

/-- The metrics block, computed from the sorted trades table (reached only
when that table is nonempty). -/
def computeMetrics (trades_df : List Trade) : Metrics :=
  let pnls := trades_df.map (fun t => t.PnL)
  let total_pnl := listSum pnls
  let cumulative := cumsum pnls
  let running_max := cummax cumulative
  let drawdown := List.zipWith (fun a b => a - b) cumulative running_max
  let max_dd := listMin drawdown
  let total_trades := trades_df.length
  let win_rate := (((pnls.filter (fun p => decide (0 < p))).length : ℚ)
      / (total_trades : ℚ)) * 100
  let avg_pnl := total_pnl / (total_trades : ℚ)
  { Total_PnL := total_pnl, Max_Drawdown := max_dd, Total_Trades := total_trades
    Win_Rate_pct := win_rate, Avg_PnL := avg_pnl }

/-- The day loop of the single-trade variant: all trades, in session order. -/
def ledger1 (hist_df : List Candle) (pct sl_pct : ℚ) (start_time end_time : Nat) :
    List Trade :=
  (sessions hist_df start_time end_time).flatMap
    (fun p => simulateDay1 pct sl_pct p.1 p.2)

/-- The day loop of the two-trade variant. -/
def ledger2 (hist_df : List Candle) (pct sl_pct : ℚ) (start_time end_time : Nat) :
    List Trade :=
  (sessions hist_df start_time end_time).flatMap
    (fun p => simulateDay2 pct sl_pct p.1 p.2)

/-- Sort key of `trades_df.sort_values("Date")` (line 93). -/
def leDate (a b : Trade) : Bool := decide (a.Date ≤ b.Date)

/-- Sort key of `trades_df.sort_values(["Date", "EntryTime"])` (line 220):
lexicographic in (Date, EntryTime); pandas multi-key sorting is stable. -/
def leDateEntry (a b : Trade) : Bool :=
  decide (a.Date < b.Date) ||
    (decide (a.Date = b.Date) && decide (tsle a.EntryTime b.EntryTime))

/-- `backtest_intraday_open_breakout(hist_df, pct, sl_pct, start_time,
end_time)` (lines 3–111).  `sl_pct=None` means "use `pct`". -/
def backtest_intraday_open_breakout (hist_df : List Candle) (pct : ℚ)
    (sl_pct : Option ℚ) (start_time end_time : Nat) : List Trade × Metrics :=
  let slp := sl_pct.getD pct
  let trades := ledger1 hist_df pct slp start_time end_time
  if trades.isEmpty then ([], emptyMetrics)
  else
    let trades_df := sortByB leDate trades
    (trades_df, computeMetrics trades_df)

/-- `backtest_intraday_open_breakout2(hist_df, pct, sl_pct, start_time,
end_time)` (lines 115–236). -/
def backtest_intraday_open_breakout2 (hist_df : List Candle) (pct : ℚ)
    (sl_pct : Option ℚ) (start_time end_time : Nat) : List Trade × Metrics :=
  let slp := sl_pct.getD pct
  let trades := ledger2 hist_df pct slp start_time end_time
  if trades.isEmpty then ([], emptyMetrics)
  else
    let trades_df := sortByB leDateEntry trades
    (trades_df, computeMetrics trades_df)

/-- `filter_by_date(df, start_date, end_date)` (lines 246–256): the mask is
`(df['time'] >= start_date) & (df['time'] <= end_date)`.  The date strings
are parsed by pandas into timestamps at midnight of the named day, so the
comparison is against `⟨start_date, 0⟩` and `⟨end_date, 0⟩`. -/
def filter_by_date (df : List Candle) (start_date end_date : Nat) : List Candle :=
  df.filter (fun c =>
    decide (tsle ⟨start_date, 0⟩ c.time) && decide (tsle c.time ⟨end_date, 0⟩))

/-- Everything the spec asserts about one emitted trade, relative to its
session `s` and its calendar day `d`. -/
def TradeOK (slp : ℚ) (d : Nat) (s : List Candle) (t : Trade) : Prop :=
  t.Date = d ∧
  (∃ c ∈ s, c.time = t.EntryTime) ∧
  (∃ c ∈ s, c.time = t.ExitTime) ∧
  tsle t.EntryTime t.ExitTime ∧
  (t.StopHit = true → t.Exit = stopLevel t.ttype t.Entry slp) ∧
  (∀ f rest, s = f :: rest →
    (t.StopHit = false → t.Exit = (List.getLastD rest f).close ∧
        t.ExitTime = (List.getLastD rest f).time) ∧
    (t.EntryTime = (List.getLastD rest f).time → t.ExitTime = t.EntryTime)) ∧
  t.PnL = (if t.ttype = .LONG then t.Exit - t.Entry else t.Entry - t.Exit)

/-! ### Concrete inputs used as witnesses -/

/-- The literal scenario of spec §8: first-candle open 100, a candle whose
high 101.5 crosses the long trigger 101, and a later candle whose low 100.4
touches the stop 100.495; a single calendar day. -/
def exDf : List Candle :=
  [ ⟨⟨0, 30⟩, 100, 100, 100, 100⟩,
    ⟨⟨0, 35⟩, 100.5, 101.5, 100.2, 101⟩,
    ⟨⟨0, 40⟩, 100.6, 100.9, 100.4, 100.5⟩ ]

/-- The trade the backtests produce on `exDf` with pct 1%, stop 0.5%. -/
def exTrade1 : Trade :=
  { Date := 0, ttype := .LONG, Entry := 101, Exit := 100.495, PnL := -0.505,
    StopHit := true, EntryTime := ⟨0, 35⟩, ExitTime := ⟨0, 40⟩ }

/-- The reversal trade the two-trade variant adds on `exDf`. -/
def exTrade2 : Trade :=
  { Date := 0, ttype := .SHORT, Entry := 100.495, Exit := 100.5, PnL := -0.005,
    StopHit := false, EntryTime := ⟨0, 40⟩, ExitTime := ⟨0, 40⟩ }

/-- A one-candle day that never reaches either trigger. -/
def quietDf : List Candle := [⟨⟨0, 30⟩, 100, 100, 100, 100⟩]

/-- A candle satisfying both trigger conditions at once (high ≥ 101 and
low ≤ 99 with open 100, pct 1%). -/
def exC7 : Candle := ⟨⟨0, 0⟩, 100, 101.5, 98, 100⟩

theorem tsle_refl (a : Timestamp) : tsle a a := by
  unfold tsle; omega

theorem tsle_trans {a b c : Timestamp} (h1 : tsle a b) (h2 : tsle b c) : tsle a c := by
  unfold tsle at *; omega

theorem tsle_antisymm {a b : Timestamp} (h1 : tsle a b) (h2 : tsle b a) : a = b := by
  unfold tsle at h1 h2
  rcases a with ⟨ad, at1⟩
  rcases b with ⟨bd, bt1⟩
  simp only [Timestamp.mk.injEq]
  dsimp only at h1 h2
  omega

theorem tsle_total (a b : Timestamp) : tsle a b ∨ tsle b a := by
  unfold tsle; omega

theorem tsle_of_not_tslt {a b : Timestamp} (h : ¬ tslt a b) : tsle b a := by
  unfold tslt at h; unfold tsle; omega

theorem tsle_day_le {a b : Timestamp} (h : tsle a b) : a.day ≤ b.day := by
  unfold tsle at h; omega

theorem insertLe_perm {α : Type} (le : α → α → Bool) (a : α) (l : List α) :
    (insertLe le a l).Perm (a :: l) := by
  induction l with
  | nil => simp [insertLe]
  | cons b bs ih =>
    simp only [insertLe]
    by_cases h : le a b = true
    · simp [h]
    · simp only [h, if_false]
      exact (List.Perm.cons b ih).trans (List.Perm.swap a b bs)

theorem sortByB_perm {α : Type} (le : α → α → Bool) (l : List α) :
    (sortByB le l).Perm l := by
  induction l with
  | nil => simp [sortByB]
  | cons a as ih =>
    simp only [sortByB]
    exact (insertLe_perm le a (sortByB le as)).trans (List.Perm.cons a ih)

theorem mem_insertLe {α : Type} {le : α → α → Bool} {a x : α} {l : List α} :
    x ∈ insertLe le a l ↔ x = a ∨ x ∈ l := by
  have := (insertLe_perm le a l).mem_iff (a := x)
  simpa using this

theorem mem_sortByB {α : Type} {le : α → α → Bool} {x : α} {l : List α} :
    x ∈ sortByB le l ↔ x ∈ l :=
  (sortByB_perm le l).mem_iff

theorem pairwise_insertLe {α : Type} (le : α → α → Bool)
    (htrans : ∀ a b c, le a b = true → le b c = true → le a c = true)
    (htotal : ∀ a b, le a b = true ∨ le b a = true)
    {a : α} {l : List α} (hl : l.Pairwise (fun x y => le x y = true)) :
    (insertLe le a l).Pairwise (fun x y => le x y = true) := by
  induction l with
  | nil => simp [insertLe]
  | cons b bs ih =>
    rcases List.pairwise_cons.mp hl with ⟨hb, hbs⟩
    simp only [insertLe]
    by_cases h : le a b = true
    · simp only [h, if_true]
      refine List.pairwise_cons.mpr ⟨?_, hl⟩
      intro y hy
      rcases List.mem_cons.mp hy with rfl | hy'
      · exact h
      · exact htrans a b y h (hb y hy')
    · simp only [h, if_false]
      refine List.pairwise_cons.mpr ⟨?_, ih hbs⟩
      intro y hy
      rcases mem_insertLe.mp hy with heq | hy2
      · rw [heq]
        rcases htotal a b with h' | h'
        · exact absurd h' h
        · exact h'
      · exact hb y hy2

theorem pairwise_sortByB {α : Type} (le : α → α → Bool)
    (htrans : ∀ a b c, le a b = true → le b c = true → le a c = true)
    (htotal : ∀ a b, le a b = true ∨ le b a = true)
    (l : List α) :
    (sortByB le l).Pairwise (fun x y => le x y = true) := by
  induction l with
  | nil => simp [sortByB]
  | cons a as ih => exact pairwise_insertLe le htrans htotal ih

/-! ### Structure of `groupByDay` and `sessions` -/

theorem groupByDay_group_ne_nil : ∀ {l : List Candle} {d : Nat} {g : List Candle},
    (d, g) ∈ groupByDay l → g ≠ [] := by
  intro l
  induction l with
  | nil => intro d g h; simp [groupByDay] at h
  | cons c rest ih =>
    intro d g h
    cases hgr : groupByDay rest with
    | nil =>
      simp only [groupByDay, hgr, List.mem_singleton, Prod.mk.injEq] at h
      rw [h.2]; simp
    | cons p gs =>
      obtain ⟨d', g'⟩ := p
      simp only [groupByDay, hgr] at h
      split at h
      · rcases List.mem_cons.mp h with heq | hmem
        · rw [Prod.mk.injEq] at heq
          rw [heq.2]; simp
        · exact ih (show (d, g) ∈ groupByDay rest by rw [hgr]; exact List.mem_cons_of_mem _ hmem)
      · rcases List.mem_cons.mp h with heq | hmem
        · rw [Prod.mk.injEq] at heq
          rw [heq.2]; simp
        · exact ih (show (d, g) ∈ groupByDay rest by rw [hgr]; exact hmem)

theorem groupByDay_mem_day : ∀ {l : List Candle} {d : Nat} {g : List Candle},
    (d, g) ∈ groupByDay l → ∀ c ∈ g, c.time.day = d := by
  intro l
  induction l with
  | nil => intro d g h; simp [groupByDay] at h
  | cons c rest ih =>
    intro d g h x hx
    cases hgr : groupByDay rest with
    | nil =>
      simp only [groupByDay, hgr, List.mem_singleton, Prod.mk.injEq] at h
      rw [h.2] at hx
      simp only [List.mem_singleton] at hx
      rw [hx, h.1]
    | cons p gs =>
      obtain ⟨d', g'⟩ := p
      simp only [groupByDay, hgr] at h
      split at h
      · rename_i hday
        rcases List.mem_cons.mp h with heq | hmem
        · rw [Prod.mk.injEq] at heq
          rw [heq.2] at hx
          rcases List.mem_cons.mp hx with rfl | hx'
          · rw [hday, heq.1]
          · rw [ih (show (d', g') ∈ groupByDay rest by rw [hgr]; exact List.mem_cons_self _ _) x hx',
              heq.1]
        · exact ih (show (d, g) ∈ groupByDay rest by
            rw [hgr]; exact List.mem_cons_of_mem _ hmem) x hx
      · rcases List.mem_cons.mp h with heq | hmem
        · rw [Prod.mk.injEq] at heq
          rw [heq.2] at hx
          simp only [List.mem_singleton] at hx
          rw [hx, heq.1]
        · exact ih (show (d, g) ∈ groupByDay rest by rw [hgr]; exact hmem) x hx

theorem groupByDay_sublist : ∀ {l : List Candle} {d : Nat} {g : List Candle},
    (d, g) ∈ groupByDay l → g.Sublist l := by
  intro l
  induction l with
  | nil => intro d g h; simp [groupByDay] at h
  | cons c rest ih =>
    intro d g h
    cases hgr : groupByDay rest with
    | nil =>
      simp only [groupByDay, hgr, List.mem_singleton, Prod.mk.injEq] at h
      rw [h.2]
      exact (List.nil_sublist rest).cons₂ c
    | cons p gs =>
      obtain ⟨d', g'⟩ := p
      simp only [groupByDay, hgr] at h
      split at h
      · rcases List.mem_cons.mp h with heq | hmem
        · rw [Prod.mk.injEq] at heq
          rw [heq.2]
          exact (ih (show (d', g') ∈ groupByDay rest by
            rw [hgr]; exact List.mem_cons_self _ _)).cons₂ c
        · exact (ih (show (d, g) ∈ groupByDay rest by
            rw [hgr]; exact List.mem_cons_of_mem _ hmem)).cons c
      · rcases List.mem_cons.mp h with heq | hmem
        · rw [Prod.mk.injEq] at heq
          rw [heq.2]
          exact (List.nil_sublist rest).cons₂ c
        · exact (ih (show (d, g) ∈ groupByDay rest by rw [hgr]; exact hmem)).cons c

theorem groupByDay_keys_lt : ∀ {l : List Candle},
    l.Pairwise (fun a b => tsle a.time b.time) →
    (groupByDay l).Pairwise (fun p q => p.1 < q.1) := by
  intro l
  induction l with
  | nil => intro _; simp [groupByDay]
  | cons c rest ih =>
    intro hl
    rcases List.pairwise_cons.mp hl with ⟨hc, hrest⟩
    have IH := ih hrest
    cases hgr : groupByDay rest with
    | nil => simp [groupByDay, hgr]
    | cons p gs =>
      obtain ⟨d', g'⟩ := p
      rw [hgr] at IH
      rcases List.pairwise_cons.mp IH with ⟨hd', hgs⟩
      simp only [groupByDay, hgr]
      split
      · exact List.pairwise_cons.mpr ⟨fun q hq => hd' q hq, hgs⟩
      · rename_i hne
        have hg' : g' ≠ [] :=
          groupByDay_group_ne_nil (by rw [hgr]; exact List.mem_cons_self _ _)
        obtain ⟨x, hx⟩ := List.exists_mem_of_ne_nil g' hg'
        have hxday : x.time.day = d' :=
          groupByDay_mem_day (by rw [hgr]; exact List.mem_cons_self _ _) x hx
        have hxrest : x ∈ rest :=
          (groupByDay_sublist (by rw [hgr]; exact List.mem_cons_self _ _)).subset hx
        have hcd : c.time.day < d' := by
          have h1 := tsle_day_le (hc x hxrest)
          rw [hxday] at h1
          omega
        refine List.pairwise_cons.mpr ⟨?_, IH⟩
        intro q hq
        rcases List.mem_cons.mp hq with rfl | hq'
        · exact hcd
        · have h2 := hd' q hq'
          simp only at h2 ⊢
          omega

theorem sortByTime_pairwise (l : List Candle) :
    (sortByTime l).Pairwise (fun a b => tsle a.time b.time) := by
  have h := pairwise_sortByB (fun a b : Candle => decide (tsle a.time b.time))
    (fun a b c hab hbc => by
      simp only [decide_eq_true_eq] at hab hbc ⊢
      exact tsle_trans hab hbc)
    (fun a b => by
      simp only [decide_eq_true_eq]
      exact tsle_total a.time b.time) l
  exact h.imp (fun hd => of_decide_eq_true hd)

theorem sortByTime_perm (l : List Candle) : (sortByTime l).Perm l :=
  sortByB_perm _ l

theorem mem_betweenTime {st et : Nat} {c : Candle} {l : List Candle} :
    c ∈ betweenTime st et l ↔ c ∈ l ∧ st ≤ c.time.tod ∧ c.time.tod ≤ et := by
  simp [betweenTime, List.mem_filter]

theorem betweenTime_sublist (st et : Nat) (l : List Candle) :
    (betweenTime st et l).Sublist l :=
  List.filter_sublist l

/-- Everything a claim needs to know about one emitted session: it is
nonempty, its candles are in chronological order, and they all belong to
the session's calendar day and lie in the time-of-day window. -/
theorem sessions_props {df : List Candle} {st et : Nat} {p : Nat × List Candle}
    (hp : p ∈ sessions df st et) :
    p.2 ≠ [] ∧ p.2.Pairwise (fun a b => tsle a.time b.time) ∧
      ∀ c ∈ p.2, c.time.day = p.1 ∧ st ≤ c.time.tod ∧ c.time.tod ≤ et := by
  rcases List.mem_filter.mp hp with ⟨hmap, hne⟩
  rcases List.mem_map.mp hmap with ⟨q, hq, hpq⟩
  obtain ⟨qd, qg⟩ := q
  simp only at hpq
  have hqsub : qg.Sublist (sortByTime df) := groupByDay_sublist hq
  have hqpw : qg.Pairwise (fun a b => tsle a.time b.time) :=
    (sortByTime_pairwise df).sublist hqsub
  refine ⟨?_, ?_, ?_⟩
  · intro hnil
    rw [← hpq] at hne
    simp only at hne
    rw [← hpq] at hnil
    simp only at hnil
    rw [hnil] at hne
    simp at hne
  · rw [← hpq]
    exact hqpw.sublist (betweenTime_sublist st et qg)
  · intro c hc
    rw [← hpq] at hc
    simp only at hc
    rcases mem_betweenTime.mp hc with ⟨hcq, h1, h2⟩
    refine ⟨?_, h1, h2⟩
    rw [← hpq]
    exact groupByDay_mem_day hq c hcq

/-- The emitted sessions carry strictly increasing calendar days. -/
theorem sessions_keys_lt (df : List Candle) (st et : Nat) :
    (sessions df st et).Pairwise (fun p q => p.1 < q.1) := by
  have h1 := groupByDay_keys_lt (sortByTime_pairwise df)
  have h2 : (((groupByDay (sortByTime df)).map
      (fun p => (p.1, betweenTime st et p.2)))).Pairwise (fun p q => p.1 < q.1) := by
    rw [List.pairwise_map]
    exact h1
  exact h2.filter _

/-! ### Structure of the trigger and stop scans -/

theorem firstTrigger_mem {longT shortT : ℚ} :
    ∀ {l : List Candle} {tg : TrigInfo},
      firstTrigger longT shortT l = some tg → ∃ c ∈ l, c.time = tg.ts := by
  intro l
  induction l with
  | nil => intro tg h; simp [firstTrigger] at h
  | cons c cs ih =>
    intro tg h
    simp only [firstTrigger] at h
    split at h
    · rw [Option.some.injEq] at h
      exact ⟨c, List.mem_cons_self _ _, by rw [← h]⟩
    · split at h
      · rw [Option.some.injEq] at h
        exact ⟨c, List.mem_cons_self _ _, by rw [← h]⟩
      · obtain ⟨x, hx, hxt⟩ := ih h
        exact ⟨x, List.mem_cons_of_mem _ hx, hxt⟩

/-- The first-trigger scan fires LONG on the first candle that reaches the
long trigger, whatever that candle's low does (the `elif`). -/
theorem firstTrigger_long {longT shortT : ℚ} {c : Candle} :
    ∀ {pre : List Candle} (post : List Candle),
      (∀ x ∈ pre, x.high < longT ∧ shortT < x.low) →
      longT ≤ c.high →
      firstTrigger longT shortT (pre ++ c :: post) = some ⟨c.time, .LONG, longT⟩ := by
  intro pre
  induction pre with
  | nil =>
    intro post _ hlong
    simp only [List.nil_append, firstTrigger]
    rw [if_pos (by exact hlong)]
  | cons x xs ih =>
    intro post hpre hlong
    have hx := hpre x (List.mem_cons_self _ _)
    simp only [List.cons_append, firstTrigger]
    rw [if_neg (by exact not_le.mpr hx.1), if_neg (by exact not_le.mpr hx.2)]
    exact ih post (fun y hy => hpre y (List.mem_cons_of_mem _ hy)) hlong

theorem findStop_mem {ty : TradeType} {sl : ℚ} :
    ∀ {l : List Candle} {p : ℚ} {ts : Timestamp},
      findStop ty sl l = some (p, ts) → p = sl ∧ ∃ c ∈ l, c.time = ts := by
  intro l
  induction l with
  | nil => intro p ts h; simp [findStop] at h
  | cons c cs ih =>
    intro p ts h
    simp only [findStop] at h
    rcases ty with _ | _ <;> simp only at h <;> split at h
    · rw [Option.some.injEq, Prod.mk.injEq] at h
      exact ⟨h.1.symm, c, List.mem_cons_self _ _, h.2⟩
    · obtain ⟨hp, x, hx, hxt⟩ := ih h
      exact ⟨hp, x, List.mem_cons_of_mem _ hx, hxt⟩
    · rw [Option.some.injEq, Prod.mk.injEq] at h
      exact ⟨h.1.symm, c, List.mem_cons_self _ _, h.2⟩
    · obtain ⟨hp, x, hx, hxt⟩ := ih h
      exact ⟨hp, x, List.mem_cons_of_mem _ hx, hxt⟩

theorem afterTs_sublist (ts : Timestamp) (l : List Candle) :
    (afterTs ts l).Sublist l :=
  (List.drop_sublist 1 _).trans (List.dropWhile_sublist _)

theorem dropWhile_head_false {p : Candle → Bool} :
    ∀ {l : List Candle} {c : Candle} {cs : List Candle},
      l.dropWhile p = c :: cs → p c = false := by
  intro l
  induction l with
  | nil => intro c cs h; simp [List.dropWhile] at h
  | cons x xs ih =>
    intro c cs h
    simp only [List.dropWhile] at h
    split at h
    · exact ih h
    · rw [List.cons.injEq] at h
      rw [← h.1]
      rename_i hx
      exact Bool.not_eq_true _ ▸ hx

/-- Every candle of `day_data.loc[ts:].iloc[1:]` sits at or after `ts`
(the session being chronologically sorted). -/
theorem mem_afterTs_tsle {ts : Timestamp} {l : List Candle}
    (hpw : l.Pairwise (fun a b => tsle a.time b.time)) :
    ∀ c ∈ afterTs ts l, tsle ts c.time := by
  intro c hc
  unfold afterTs at hc
  cases hdw : l.dropWhile (fun c => decide (tslt c.time ts)) with
  | nil => rw [hdw] at hc; simp at hc
  | cons h0 t0 =>
    rw [hdw] at hc
    simp only [List.drop_one, List.tail_cons] at hc
    have hh0 : tsle ts h0.time := by
      have := dropWhile_head_false hdw
      simp only [decide_eq_false_iff_not] at this
      exact tsle_of_not_tslt this
    have hpw' : (h0 :: t0).Pairwise (fun a b => tsle a.time b.time) := by
      rw [← hdw]
      exact hpw.sublist (List.dropWhile_sublist _)
    have h01 := (List.pairwise_cons.mp hpw').1 c hc
    exact tsle_trans hh0 h01

theorem getLastD_mem_cons (f : Candle) : ∀ (rest : List Candle),
    List.getLastD rest f ∈ f :: rest := by
  intro rest
  induction rest generalizing f with
  | nil => simp [List.getLastD]
  | cons g gs ih =>
    simp only [List.getLastD_cons]
    exact List.mem_cons_of_mem f (ih g)

theorem pairwise_tsle_last {f : Candle} {rest : List Candle}
    (hpw : (f :: rest).Pairwise (fun a b => tsle a.time b.time)) :
    ∀ c ∈ f :: rest, tsle c.time (List.getLastD rest f).time := by
  induction rest generalizing f with
  | nil =>
    intro c hc
    simp only [List.mem_singleton] at hc
    rw [hc]
    exact tsle_refl _
  | cons g gs ih =>
    intro c hc
    rcases List.pairwise_cons.mp hpw with ⟨hf, hrest⟩
    simp only [List.getLastD_cons]
    rcases List.mem_cons.mp hc with rfl | hc'
    · exact hf _ (getLastD_mem_cons g gs)
    · exact ih hrest c hc'

/-- Full behaviour of the trade-management block (first or reversal trade):
on `stop_hit` the exit price is the stop level and the exit timestamp is a
session candle's at or after the trigger; otherwise the trade force-closes
at the last candle's close and timestamp.  A trade whose trigger timestamp
is the session's last timestamp exits at that same timestamp. -/
theorem manageExit_spec (ty : TradeType) (sl : ℚ) {ts : Timestamp}
    {s : List Candle} {lastC : Candle}
    (hpw : s.Pairwise (fun a b => tsle a.time b.time))
    (hlast : ∀ c ∈ s, tsle c.time lastC.time)
    (hts : tsle ts lastC.time) :
    ((manageExit ty sl ts s lastC).hit = true →
        (manageExit ty sl ts s lastC).price = sl ∧
        ∃ c ∈ s, c.time = (manageExit ty sl ts s lastC).ts) ∧
    ((manageExit ty sl ts s lastC).hit = false →
        (manageExit ty sl ts s lastC).price = lastC.close ∧
        (manageExit ty sl ts s lastC).ts = lastC.time) ∧
    tsle ts (manageExit ty sl ts s lastC).ts ∧
    tsle (manageExit ty sl ts s lastC).ts lastC.time ∧
    (ts = lastC.time → (manageExit ty sl ts s lastC).ts = ts) := by
  cases hfs : findStop ty sl (afterTs ts s) with
  | none =>
    have he : manageExit ty sl ts s lastC = ⟨lastC.close, lastC.time, false⟩ := by
      simp only [manageExit, hfs]
    rw [he]
    exact ⟨fun h => by simp at h, fun _ => ⟨rfl, rfl⟩, hts, tsle_refl _, fun h => h.symm⟩
  | some pr =>
    obtain ⟨p, ts'⟩ := pr
    obtain ⟨hp, c, hc, hct⟩ := findStop_mem hfs
    have hcs : c ∈ s := (afterTs_sublist ts s).subset hc
    have h1 : tsle ts ts' := hct ▸ mem_afterTs_tsle hpw c hc
    have h2 : tsle ts' lastC.time := hct ▸ hlast c hcs
    have he : manageExit ty sl ts s lastC = ⟨p, ts', true⟩ := by
      simp only [manageExit, hfs]
    rw [he]
    refine ⟨fun _ => ⟨hp, c, hcs, hct⟩, fun h => by simp at h, h1, h2, ?_⟩
    intro hlaste
    rw [hlaste] at h1
    rw [hlaste]
    exact tsle_antisymm h2 h1

/-- The inline LONG/SHORT stop expressions (lines 44/50, 152/156, 190) all
compute `stopLevel`. -/
theorem if_stopLevel (ty : TradeType) (e slp : ℚ) :
    (if ty = .LONG then e * (1 - slp) else e * (1 + slp)) = stopLevel ty e slp := by
  cases ty <;> simp [stopLevel]

theorem trade1Of_eq (slp : ℚ) (d : Nat) (s : List Candle) (lastC : Candle)
    (tg : TrigInfo) :
    trade1Of slp d s lastC tg =
      { Date := d, ttype := tg.ty, Entry := tg.entry
        Exit := (manageExit tg.ty (stopLevel tg.ty tg.entry slp) tg.ts s lastC).price
        PnL := if tg.ty = .LONG then
            (manageExit tg.ty (stopLevel tg.ty tg.entry slp) tg.ts s lastC).price - tg.entry
          else tg.entry - (manageExit tg.ty (stopLevel tg.ty tg.entry slp) tg.ts s lastC).price
        StopHit := (manageExit tg.ty (stopLevel tg.ty tg.entry slp) tg.ts s lastC).hit
        EntryTime := tg.ts
        ExitTime := (manageExit tg.ty (stopLevel tg.ty tg.entry slp) tg.ts s lastC).ts } :=
  rfl

theorem reversalTrade_eq (slp : ℚ) (d : Nat) (ty : TradeType) (xp : ℚ)
    (xts : Timestamp) (s : List Candle) (lastC : Candle) :
    reversalTrade slp d ty xp xts s lastC =
      { Date := d, ttype := opposite ty, Entry := xp
        Exit := (manageExit (opposite ty) (stopLevel (opposite ty) xp slp) xts s lastC).price
        PnL := if opposite ty = .LONG then
            (manageExit (opposite ty) (stopLevel (opposite ty) xp slp) xts s lastC).price - xp
          else xp - (manageExit (opposite ty) (stopLevel (opposite ty) xp slp) xts s lastC).price
        StopHit := (manageExit (opposite ty) (stopLevel (opposite ty) xp slp) xts s lastC).hit
        EntryTime := xts
        ExitTime := (manageExit (opposite ty) (stopLevel (opposite ty) xp slp) xts s lastC).ts } := by
  rw [reversalTrade, if_stopLevel]

/-! ### Shapes of one day's output -/

theorem sim1_mem {pct slp : ℚ} {d : Nat} {s : List Candle} {t : Trade}
    (ht : t ∈ simulateDay1 pct slp d s) :
    ∃ f rest tg, s = f :: rest ∧
      firstTrigger (f.open_ * (1 + pct)) (f.open_ * (1 - pct)) (f :: rest) = some tg ∧
      t = trade1Of slp d (f :: rest) (List.getLastD rest f) tg := by
  cases s with
  | nil => simp [simulateDay1] at ht
  | cons f rest =>
    simp only [simulateDay1] at ht
    cases htg : firstTrigger (f.open_ * (1 + pct)) (f.open_ * (1 - pct)) (f :: rest) with
    | none => rw [htg] at ht; simp at ht
    | some tg =>
      rw [htg] at ht
      simp only [List.mem_singleton] at ht
      exact ⟨f, rest, tg, rfl, htg, ht⟩

theorem sim1_length (pct slp : ℚ) (d : Nat) (s : List Candle) :
    (simulateDay1 pct slp d s).length ≤ 1 := by
  cases s with
  | nil => simp [simulateDay1]
  | cons f rest =>
    cases htg : firstTrigger (f.open_ * (1 + pct)) (f.open_ * (1 - pct)) (f :: rest) with
    | none => simp [simulateDay1, htg]
    | some tg => simp [simulateDay1, htg]

theorem sim2_cases (pct slp : ℚ) (d : Nat) (s : List Candle) :
    simulateDay2 pct slp d s = [] ∨
    ∃ f rest tg, s = f :: rest ∧
      firstTrigger (f.open_ * (1 + pct)) (f.open_ * (1 - pct)) (f :: rest) = some tg ∧
      ∃ t1, t1 = trade1Of slp d (f :: rest) (List.getLastD rest f) tg ∧
        ((t1.StopHit = false ∧ simulateDay2 pct slp d s = [t1]) ∨
         (t1.StopHit = true ∧ simulateDay2 pct slp d s =
            [t1, reversalTrade slp d t1.ttype t1.Exit t1.ExitTime (f :: rest)
              (List.getLastD rest f)])) := by
  cases s with
  | nil => left; simp [simulateDay2]
  | cons f rest =>
    cases htg : firstTrigger (f.open_ * (1 + pct)) (f.open_ * (1 - pct)) (f :: rest) with
    | none => left; simp [simulateDay2, htg]
    | some tg =>
      right
      refine ⟨f, rest, tg, rfl, htg,
        trade1Of slp d (f :: rest) (List.getLastD rest f) tg, rfl, ?_⟩
      by_cases hsh : (trade1Of slp d (f :: rest) (List.getLastD rest f) tg).StopHit = true
      · right
        refine ⟨hsh, ?_⟩
        simp only [simulateDay2, htg]
        rw [if_pos ⟨hsh, by norm_num⟩]
      · left
        refine ⟨by simpa using hsh, ?_⟩
        simp only [simulateDay2, htg]
        rw [if_neg (by intro hc; exact hsh hc.1)]

/-- Both trade blocks build the same record shape from an entry
(`TY`, `EN`, `TS`) and the managed exit; this establishes `TradeOK` for
any such record. -/
theorem managed_TradeOK {slp : ℚ} {d : Nat} {f : Candle} {rest : List Candle}
    {TY : TradeType} {EN : ℚ} {TS : Timestamp}
    (hpw : (f :: rest).Pairwise (fun a b => tsle a.time b.time))
    (hTS : ∃ c ∈ f :: rest, c.time = TS)
    (t : Trade)
    (hteq : t =
      { Date := d, ttype := TY, Entry := EN,
        Exit := (manageExit TY (stopLevel TY EN slp) TS (f :: rest)
          (List.getLastD rest f)).price,
        PnL := if TY = .LONG then
            (manageExit TY (stopLevel TY EN slp) TS (f :: rest)
              (List.getLastD rest f)).price - EN
          else EN - (manageExit TY (stopLevel TY EN slp) TS (f :: rest)
              (List.getLastD rest f)).price,
        StopHit := (manageExit TY (stopLevel TY EN slp) TS (f :: rest)
          (List.getLastD rest f)).hit,
        EntryTime := TS,
        ExitTime := (manageExit TY (stopLevel TY EN slp) TS (f :: rest)
          (List.getLastD rest f)).ts }) :
    TradeOK slp d (f :: rest) t := by
  have hlast : ∀ c ∈ f :: rest, tsle c.time (List.getLastD rest f).time :=
    pairwise_tsle_last hpw
  have hts : tsle TS (List.getLastD rest f).time := by
    obtain ⟨c, hc, hct⟩ := hTS
    rw [← hct]
    exact hlast c hc
  have spec := manageExit_spec TY (stopLevel TY EN slp) hpw hlast hts
  obtain ⟨s1, s2, s3, s4, s5⟩ := spec
  subst hteq
  refine ⟨rfl, hTS, ?_, s3, fun h => (s1 h).1, ?_, rfl⟩
  · cases hhit : (manageExit TY (stopLevel TY EN slp) TS (f :: rest)
        (List.getLastD rest f)).hit with
    | true => exact (s1 hhit).2
    | false =>
      exact ⟨List.getLastD rest f, getLastD_mem_cons f rest, ((s2 hhit).2).symm⟩
  · intro f' rest' heq
    rw [List.cons.injEq] at heq
    obtain ⟨hf, hr⟩ := heq
    subst hf; subst hr
    exact ⟨fun h => (s2 h), fun h => s5 h⟩

theorem sim1_TradeOK {pct slp : ℚ} {d : Nat} {s : List Candle}
    (hpw : s.Pairwise (fun a b => tsle a.time b.time))
    {t : Trade} (ht : t ∈ simulateDay1 pct slp d s) : TradeOK slp d s t := by
  obtain ⟨f, rest, tg, rfl, htg, hteq⟩ := sim1_mem ht
  exact managed_TradeOK hpw (firstTrigger_mem htg) t (by rw [hteq, trade1Of_eq])

theorem sim2_TradeOK {pct slp : ℚ} {d : Nat} {s : List Candle}
    (hpw : s.Pairwise (fun a b => tsle a.time b.time))
    {t : Trade} (ht : t ∈ simulateDay2 pct slp d s) : TradeOK slp d s t := by
  rcases sim2_cases pct slp d s with hnil | ⟨f, rest, tg, heq, htg, t1, ht1, hc⟩
  · rw [hnil] at ht; simp at ht
  · subst heq
    have hT1 : TradeOK slp d (f :: rest) t1 :=
      managed_TradeOK hpw (firstTrigger_mem htg) t1 (by rw [ht1, trade1Of_eq])
    rcases hc with ⟨_, hout⟩ | ⟨_, hout⟩
    · rw [hout] at ht
      simp only [List.mem_singleton] at ht
      rw [ht]
      exact hT1
    · rw [hout] at ht
      rcases List.mem_cons.mp ht with rfl | ht'
      · exact hT1
      · simp only [List.mem_singleton] at ht'
        rw [ht']
        exact managed_TradeOK hpw hT1.2.2.1 _ (by rw [reversalTrade_eq])

/-! ### From the returned tables back to the sessions -/

theorem mem_backtest1 {df : List Candle} {pct : ℚ} {sl_pct : Option ℚ}
    {st et : Nat} {t : Trade}
    (ht : t ∈ (backtest_intraday_open_breakout df pct sl_pct st et).1) :
    ∃ p ∈ sessions df st et, t ∈ simulateDay1 pct (sl_pct.getD pct) p.1 p.2 := by
  simp only [backtest_intraday_open_breakout] at ht
  split at ht
  · simp at ht
  · rw [mem_sortByB] at ht
    exact List.mem_flatMap.mp ht

theorem mem_backtest2 {df : List Candle} {pct : ℚ} {sl_pct : Option ℚ}
    {st et : Nat} {t : Trade}
    (ht : t ∈ (backtest_intraday_open_breakout2 df pct sl_pct st et).1) :
    ∃ p ∈ sessions df st et, t ∈ simulateDay2 pct (sl_pct.getD pct) p.1 p.2 := by
  simp only [backtest_intraday_open_breakout2] at ht
  split at ht
  · simp at ht
  · rw [mem_sortByB] at ht
    exact List.mem_flatMap.mp ht

theorem backtest1_TradeOK {df : List Candle} {pct : ℚ} {sl_pct : Option ℚ}
    {st et : Nat} {t : Trade}
    (ht : t ∈ (backtest_intraday_open_breakout df pct sl_pct st et).1) :
    ∃ p ∈ sessions df st et, TradeOK (sl_pct.getD pct) p.1 p.2 t := by
  obtain ⟨p, hp, hts⟩ := mem_backtest1 ht
  exact ⟨p, hp, sim1_TradeOK (sessions_props hp).2.1 hts⟩

theorem backtest2_TradeOK {df : List Candle} {pct : ℚ} {sl_pct : Option ℚ}
    {st et : Nat} {t : Trade}
    (ht : t ∈ (backtest_intraday_open_breakout2 df pct sl_pct st et).1) :
    ∃ p ∈ sessions df st et, TradeOK (sl_pct.getD pct) p.1 p.2 t := by
  obtain ⟨p, hp, hts⟩ := mem_backtest2 ht
  exact ⟨p, hp, sim2_TradeOK (sessions_props hp).2.1 hts⟩

/-! ### Dates and counts per day -/

theorem sim1_Date {pct slp : ℚ} {d : Nat} {s : List Candle} {t : Trade}
    (ht : t ∈ simulateDay1 pct slp d s) : t.Date = d := by
  obtain ⟨f, rest, tg, _, _, hteq⟩ := sim1_mem ht
  rw [hteq, trade1Of_eq]

theorem sim2_Date {pct slp : ℚ} {d : Nat} {s : List Candle} {t : Trade}
    (ht : t ∈ simulateDay2 pct slp d s) : t.Date = d := by
  rcases sim2_cases pct slp d s with hnil | ⟨f, rest, tg, _, _, t1, ht1, hc⟩
  · rw [hnil] at ht; simp at ht
  · rcases hc with ⟨_, hout⟩ | ⟨_, hout⟩
    · rw [hout] at ht
      simp only [List.mem_singleton] at ht
      rw [ht, ht1, trade1Of_eq]
    · rw [hout] at ht
      rcases List.mem_cons.mp ht with rfl | ht'
      · rw [ht1, trade1Of_eq]
      · simp only [List.mem_singleton] at ht'
        rw [ht', reversalTrade_eq]

theorem sim2_length (pct slp : ℚ) (d : Nat) (s : List Candle) :
    (simulateDay2 pct slp d s).length ≤ 2 := by
  rcases sim2_cases pct slp d s with hnil | ⟨f, rest, tg, _, _, t1, ht1, hc⟩
  · rw [hnil]; simp
  · rcases hc with ⟨_, hout⟩ | ⟨_, hout⟩ <;> rw [hout] <;> simp

theorem pairwise_of_length_le_one {α : Type} {R : α → α → Prop} {l : List α}
    (h : l.length ≤ 1) : l.Pairwise R := by
  cases l with
  | nil => exact List.Pairwise.nil
  | cons a as =>
    cases as with
    | nil => simp
    | cons b bs => simp at h

/-- At most `cap` trades per day survive a filter on one Date, provided each
session contributes at most `cap` trades, all dated with the session's key,
and the keys are strictly increasing. -/
theorem count_filter_flatMap {sim : Nat → List Candle → List Trade} {cap : Nat}
    (d : Nat) :
    ∀ {ps : List (Nat × List Candle)},
      (∀ p ∈ ps, ∀ t ∈ sim p.1 p.2, t.Date = p.1) →
      (∀ p ∈ ps, (sim p.1 p.2).length ≤ cap) →
      ps.Pairwise (fun p q => p.1 < q.1) →
      ((ps.flatMap (fun p => sim p.1 p.2)).filter
        (fun t => decide (t.Date = d))).length ≤ cap := by
  intro ps
  induction ps with
  | nil => intro _ _ _; simp
  | cons p ps ih =>
    intro hdate hcap hkeys
    rcases List.pairwise_cons.mp hkeys with ⟨hlt, hkeys'⟩
    rw [List.flatMap_cons, List.filter_append, List.length_append]
    by_cases hd : p.1 = d
    · have h2 : ((ps.flatMap (fun p => sim p.1 p.2)).filter
          (fun t => decide (t.Date = d))).length = 0 := by
        rw [List.length_eq_zero, List.filter_eq_nil_iff]
        intro t htm
        obtain ⟨q, hq, htq⟩ := List.mem_flatMap.mp htm
        have h3 := hdate q (List.mem_cons_of_mem _ hq) t htq
        have h4 := hlt q hq
        simp only [decide_eq_true_eq]
        omega
      rw [h2]
      have h5 := List.length_filter_le (fun t => decide (t.Date = d)) (sim p.1 p.2)
      have h6 := hcap p (List.mem_cons_self _ _)
      omega
    · have h1 : ((sim p.1 p.2).filter (fun t => decide (t.Date = d))).length = 0 := by
        rw [List.length_eq_zero, List.filter_eq_nil_iff]
        intro t htm
        have h3 := hdate p (List.mem_cons_self _ _) t htm
        simp only [decide_eq_true_eq]
        omega
      rw [h1]
      have h2 := ih (fun q hq => hdate q (List.mem_cons_of_mem _ hq))
        (fun q hq => hcap q (List.mem_cons_of_mem _ hq)) hkeys'
      omega

/-- With at most one trade per session and strictly increasing keys, the
full ledger carries strictly increasing dates. -/
theorem pairwise_flatMap_dates {sim : Nat → List Candle → List Trade} :
    ∀ {ps : List (Nat × List Candle)},
      (∀ p ∈ ps, ∀ t ∈ sim p.1 p.2, t.Date = p.1) →
      (∀ p ∈ ps, (sim p.1 p.2).length ≤ 1) →
      ps.Pairwise (fun p q => p.1 < q.1) →
      (ps.flatMap (fun p => sim p.1 p.2)).Pairwise (fun a b => a.Date < b.Date) := by
  intro ps
  induction ps with
  | nil => intro _ _ _; simp
  | cons p ps ih =>
    intro hdate hcap hkeys
    rcases List.pairwise_cons.mp hkeys with ⟨hlt, hkeys'⟩
    rw [List.flatMap_cons, List.pairwise_append]
    refine ⟨pairwise_of_length_le_one (hcap p (List.mem_cons_self _ _)), ?_, ?_⟩
    · exact ih (fun q hq => hdate q (List.mem_cons_of_mem _ hq))
        (fun q hq => hcap q (List.mem_cons_of_mem _ hq)) hkeys'
    · intro a ha b hb
      obtain ⟨q, hq, hbq⟩ := List.mem_flatMap.mp hb
      have h1 := hdate p (List.mem_cons_self _ _) a ha
      have h2 := hdate q (List.mem_cons_of_mem _ hq) b hbq
      have h3 := hlt q hq
      omega

/-! ### The drawdown computation -/

theorem foldl_min_le_init : ∀ (l : List ℚ) (a : ℚ),
    l.foldl (fun x y => min x y) a ≤ a := by
  intro l
  induction l with
  | nil => intro a; exact le_refl a
  | cons x xs ih =>
    intro a
    calc xs.foldl (fun x y => min x y) (min a x) ≤ min a x := ih (min a x)
      _ ≤ a := min_le_left a x

theorem foldl_min_eq_init : ∀ (l : List ℚ) (a : ℚ), (∀ x ∈ l, a ≤ x) →
    l.foldl (fun x y => min x y) a = a := by
  intro l
  induction l with
  | nil => intro a _; rfl
  | cons x xs ih =>
    intro a h
    have hax : a ≤ x := h x (List.mem_cons_self _ _)
    simp only [List.foldl_cons, min_eq_left hax]
    exact ih a (fun y hy => h y (List.mem_cons_of_mem _ hy))

theorem cumsum_cons (x : ℚ) (xs : List ℚ) :
    cumsum (x :: xs) = x :: cumsumAux x xs := by
  simp [cumsum, cumsumAux]

theorem cummaxAux_of_chain : ∀ (xs : List ℚ) (m : ℚ),
    List.Chain' (fun a b => a ≤ b) (m :: xs) → cummaxAux m xs = xs := by
  intro xs
  induction xs with
  | nil => intro m _; rfl
  | cons y ys ih =>
    intro m h
    rcases List.chain'_cons.mp h with ⟨hmy, h2⟩
    simp only [cummaxAux, max_eq_right hmy]
    rw [ih y h2]

theorem cummax_of_chain {l : List ℚ} (h : List.Chain' (fun a b => a ≤ b) l) :
    cummax l = l := by
  cases l with
  | nil => rfl
  | cons x xs =>
    simp only [cummax]
    rw [cummaxAux_of_chain xs x h]

theorem zipWith_sub_self : ∀ (l : List ℚ),
    List.zipWith (fun a b => a - b) l l = l.map (fun _ => (0 : ℚ)) := by
  intro l
  induction l with
  | nil => rfl
  | cons x xs ih => simp [ih]

theorem listMin_map_zero (l : List ℚ) :
    listMin (l.map (fun _ => (0 : ℚ))) = 0 := by
  cases l with
  | nil => rfl
  | cons x xs =>
    simp only [List.map_cons, listMin]
    exact foldl_min_eq_init _ 0 (by
      intro y hy
      rcases List.mem_map.mp hy with ⟨a, _, ha⟩
      exact le_of_eq ha)

/-- `Max_Drawdown` is never positive: the first drawdown entry is
`c₀ - max(c₀) = 0` and the series minimum sits at or below it. -/
theorem computeMetrics_dd_nonpos (l : List Trade) :
    (computeMetrics l).Max_Drawdown ≤ 0 := by
  cases l with
  | nil => simp [computeMetrics, cumsum, cumsumAux, cummax, listMin]
  | cons t ts =>
    simp only [computeMetrics, List.map_cons, cumsum_cons, cummax]
    rw [List.zipWith_cons_cons]
    simp only [listMin, sub_self]
    exact foldl_min_le_init _ 0

/-- When the cumulative P&L curve is non-decreasing, every drawdown entry
is zero, so `Max_Drawdown = 0`. -/
theorem computeMetrics_dd_zero {l : List Trade}
    (h : List.Chain' (fun a b => a ≤ b) (cumsum (l.map (fun t => t.PnL)))) :
    (computeMetrics l).Max_Drawdown = 0 := by
  simp only [computeMetrics]
  rw [cummax_of_chain h, zipWith_sub_self, listMin_map_zero]

/-! ### Order of the returned tables -/

theorem leDate_trans (a b c : Trade) (h1 : leDate a b = true) (h2 : leDate b c = true) :
    leDate a c = true := by
  simp only [leDate, decide_eq_true_eq] at h1 h2 ⊢
  omega

theorem leDate_total (a b : Trade) : leDate a b = true ∨ leDate b a = true := by
  simp only [leDate, decide_eq_true_eq]
  omega

theorem leDateEntry_iff (a b : Trade) :
    leDateEntry a b = true ↔
      a.Date < b.Date ∨ (a.Date = b.Date ∧ tsle a.EntryTime b.EntryTime) := by
  simp [leDateEntry, Bool.or_eq_true, Bool.and_eq_true, decide_eq_true_eq]

theorem leDateEntry_trans (a b c : Trade) (h1 : leDateEntry a b = true)
    (h2 : leDateEntry b c = true) : leDateEntry a c = true := by
  rw [leDateEntry_iff] at h1 h2 ⊢
  rcases h1 with h1 | ⟨h1e, h1t⟩
  · rcases h2 with h2 | ⟨h2e, _⟩
    · left; omega
    · left; omega
  · rcases h2 with h2 | ⟨h2e, h2t⟩
    · left; omega
    · right; exact ⟨h1e.trans h2e, tsle_trans h1t h2t⟩

theorem leDateEntry_total (a b : Trade) :
    leDateEntry a b = true ∨ leDateEntry b a = true := by
  rw [leDateEntry_iff, leDateEntry_iff]
  rcases Nat.lt_trichotomy a.Date b.Date with h | h | h
  · left; left; exact h
  · rcases tsle_total a.EntryTime b.EntryTime with ht | ht
    · left; right; exact ⟨h, ht⟩
    · right; right; exact ⟨h.symm, ht⟩
  · right; left; exact h

/-- Each trade's entry timestamp belongs to the trade's own calendar day. -/
theorem entry_day_eq_Date {df : List Candle} {st et : Nat} {p : Nat × List Candle}
    (hp : p ∈ sessions df st et) {slp : ℚ} {t : Trade}
    (hOK : TradeOK slp p.1 p.2 t) : t.EntryTime.day = t.Date := by
  obtain ⟨c, hc, hct⟩ := hOK.2.1
  rw [← hct, ((sessions_props hp).2.2 c hc).1, hOK.1]

theorem backtest1_sorted_entry (df : List Candle) (pct : ℚ) (sl_pct : Option ℚ)
    (st et : Nat) :
    ((backtest_intraday_open_breakout df pct sl_pct st et).1).Pairwise
      (fun a b => tsle a.EntryTime b.EntryTime) := by
  simp only [backtest_intraday_open_breakout]
  split
  · exact List.Pairwise.nil
  · have hpw := pairwise_sortByB leDate leDate_trans leDate_total
      (ledger1 df pct (sl_pct.getD pct) st et)
    have hdl : (ledger1 df pct (sl_pct.getD pct) st et).Pairwise
        (fun a b => a.Date < b.Date) :=
      pairwise_flatMap_dates (fun p _ t ht => sim1_Date ht)
        (fun p _ => sim1_length pct (sl_pct.getD pct) p.1 p.2)
        (sessions_keys_lt df st et)
    have hperm := sortByB_perm leDate (ledger1 df pct (sl_pct.getD pct) st et)
    have hne : (sortByB leDate (ledger1 df pct (sl_pct.getD pct) st et)).Pairwise
        (fun a b => a.Date ≠ b.Date) := by
      exact (hperm.pairwise_iff (fun {a b} h => h.symm)).mpr
        (hdl.imp (fun h => Nat.ne_of_lt h))
    have hprop : ∀ t ∈ sortByB leDate (ledger1 df pct (sl_pct.getD pct) st et),
        t.EntryTime.day = t.Date := by
      intro t ht
      rw [mem_sortByB] at ht
      obtain ⟨p, hp, hsim⟩ := List.mem_flatMap.mp ht
      exact entry_day_eq_Date hp (sim1_TradeOK (sessions_props hp).2.1 hsim)
    refine (hpw.and hne).imp_of_mem ?_
    intro a b ha hb hab
    rcases hab with ⟨h1, h2⟩
    simp only [leDate, decide_eq_true_eq] at h1
    left
    rw [hprop a ha, hprop b hb]
    omega

theorem backtest2_sorted_entry (df : List Candle) (pct : ℚ) (sl_pct : Option ℚ)
    (st et : Nat) :
    ((backtest_intraday_open_breakout2 df pct sl_pct st et).1).Pairwise
      (fun a b => tsle a.EntryTime b.EntryTime) := by
  simp only [backtest_intraday_open_breakout2]
  split
  · exact List.Pairwise.nil
  · have hpw := pairwise_sortByB leDateEntry leDateEntry_trans leDateEntry_total
      (ledger2 df pct (sl_pct.getD pct) st et)
    have hprop : ∀ t ∈ sortByB leDateEntry (ledger2 df pct (sl_pct.getD pct) st et),
        t.EntryTime.day = t.Date := by
      intro t ht
      rw [mem_sortByB] at ht
      obtain ⟨p, hp, hsim⟩ := List.mem_flatMap.mp ht
      exact entry_day_eq_Date hp (sim2_TradeOK (sessions_props hp).2.1 hsim)
    refine hpw.imp_of_mem ?_
    intro a b ha hb hab
    rw [leDateEntry_iff] at hab
    rcases hab with h | ⟨_, ht⟩
    · left
      rw [hprop a ha, hprop b hb]
      omega
    · exact ht

/-! ### The claims -/

/-- C1: for every trade either variant emits, `StopHit = true` forces the
exit price to equal the stop level of the trade's direction
(`Entry*(1-sl_pct)` for LONG, `Entry*(1+sl_pct)` for SHORT), and
`StopHit = false` forces the exit price to equal the close of the trade's
session's last candle and the exit timestamp to equal that session's last
timestamp. -/
theorem claim_C1 (df : List Candle) (pct : ℚ) (sl_pct : Option ℚ) (st et : Nat) :
    (∀ t ∈ (backtest_intraday_open_breakout df pct sl_pct st et).1,
      (t.StopHit = true → t.Exit = stopLevel t.ttype t.Entry (sl_pct.getD pct)) ∧
      (t.StopHit = false → ∃ p ∈ sessions df st et, ∃ f rest,
        p.2 = f :: rest ∧ t.Exit = (List.getLastD rest f).close ∧
        t.ExitTime = (List.getLastD rest f).time)) ∧
    (∀ t ∈ (backtest_intraday_open_breakout2 df pct sl_pct st et).1,
      (t.StopHit = true → t.Exit = stopLevel t.ttype t.Entry (sl_pct.getD pct)) ∧
      (t.StopHit = false → ∃ p ∈ sessions df st et, ∃ f rest,
        p.2 = f :: rest ∧ t.Exit = (List.getLastD rest f).close ∧
        t.ExitTime = (List.getLastD rest f).time)) := by
  constructor
  · intro t ht
    obtain ⟨p, hp, hOK⟩ := backtest1_TradeOK ht
    refine ⟨hOK.2.2.2.2.1, fun hsf => ⟨p, hp, ?_⟩⟩
    obtain ⟨f, rest, hfr⟩ := List.exists_cons_of_ne_nil (sessions_props hp).1
    obtain ⟨h1, h2⟩ := (hOK.2.2.2.2.2.1 f rest hfr).1 hsf
    exact ⟨f, rest, hfr, h1, h2⟩
  · intro t ht
    obtain ⟨p, hp, hOK⟩ := backtest2_TradeOK ht
    refine ⟨hOK.2.2.2.2.1, fun hsf => ⟨p, hp, ?_⟩⟩
    obtain ⟨f, rest, hfr⟩ := List.exists_cons_of_ne_nil (sessions_props hp).1
    obtain ⟨h1, h2⟩ := (hOK.2.2.2.2.2.1 f rest hfr).1 hsf
    exact ⟨f, rest, hfr, h1, h2⟩

theorem claim_C1_witness :
    (exTrade1.StopHit = true →
      exTrade1.Exit = stopLevel exTrade1.ttype exTrade1.Entry
        ((some (5/1000 : ℚ)).getD (1/100))) ∧
    (exTrade1.StopHit = false → ∃ p ∈ sessions exDf 0 1440, ∃ f rest,
      p.2 = f :: rest ∧ exTrade1.Exit = (List.getLastD rest f).close ∧
      exTrade1.ExitTime = (List.getLastD rest f).time) :=
  (claim_C1 exDf (1/100) (some (5/1000)) 0 1440).1 exTrade1 (by
    norm_num [backtest_intraday_open_breakout, ledger1, sessions, sortByTime, sortByB,
      insertLe, tsle, exDf, groupByDay, betweenTime, simulateDay1, firstTrigger, trade1Of,
      manageExit, afterTs, findStop, stopLevel, tslt, exTrade1, leDate])

/-- C2: the single-trade variant emits at most one trade per calendar day;
the two-trade variant emits at most two per day, and emits a second trade
for a session exactly when the session's first trade has `StopHit = true`. -/
theorem claim_C2 (df : List Candle) (pct : ℚ) (sl_pct : Option ℚ) (st et d : Nat) :
    ((backtest_intraday_open_breakout df pct sl_pct st et).1.filter
        (fun t => decide (t.Date = d))).length ≤ 1 ∧
    ((backtest_intraday_open_breakout2 df pct sl_pct st et).1.filter
        (fun t => decide (t.Date = d))).length ≤ 2 ∧
    (∀ p ∈ sessions df st et, ∀ t1 ts2,
      simulateDay2 pct (sl_pct.getD pct) p.1 p.2 = t1 :: ts2 →
      (ts2 ≠ [] ↔ t1.StopHit = true)) := by
  refine ⟨?_, ?_, ?_⟩
  · simp only [backtest_intraday_open_breakout]
    split
    · simp
    · have hperm := (sortByB_perm leDate
        (ledger1 df pct (sl_pct.getD pct) st et)).filter (fun t => decide (t.Date = d))
      rw [hperm.length_eq]
      exact count_filter_flatMap d (fun p _ t ht => sim1_Date ht)
        (fun p _ => sim1_length pct (sl_pct.getD pct) p.1 p.2)
        (sessions_keys_lt df st et)
  · simp only [backtest_intraday_open_breakout2]
    split
    · simp
    · have hperm := (sortByB_perm leDateEntry
        (ledger2 df pct (sl_pct.getD pct) st et)).filter (fun t => decide (t.Date = d))
      rw [hperm.length_eq]
      exact count_filter_flatMap d (fun p _ t ht => sim2_Date ht)
        (fun p _ => sim2_length pct (sl_pct.getD pct) p.1 p.2)
        (sessions_keys_lt df st et)
  · intro p _ t1 ts2 heq
    rcases sim2_cases pct (sl_pct.getD pct) p.1 p.2 with hnil |
      ⟨f, rest, tg, _, _, t1', ht1', hc⟩
    · rw [hnil] at heq
      simp at heq
    · rcases hc with ⟨hsf, hout⟩ | ⟨hst, hout⟩
      · rw [hout] at heq
        rw [List.cons.injEq] at heq
        obtain ⟨h1, h2⟩ := heq
        subst h1
        rw [← h2]
        simp [hsf]
      · rw [hout] at heq
        rw [List.cons.injEq] at heq
        obtain ⟨h1, h2⟩ := heq
        subst h1
        rw [← h2]
        simp [hst]

theorem claim_C2_witness :
    ([exTrade2] ≠ [] ↔ exTrade1.StopHit = true) :=
  (claim_C2 exDf (1/100) (some (5/1000)) 0 1440 0).2.2 (0, exDf)
    (by
      norm_num [sessions, sortByTime, sortByB, insertLe, tsle, exDf, groupByDay,
        betweenTime])
    exTrade1 [exTrade2]
    (by
      norm_num [simulateDay2, exDf, firstTrigger, trade1Of, reversalTrade, opposite,
        manageExit, afterTs, findStop, stopLevel, tslt, exTrade1, exTrade2]
      decide)

/-- C3: whenever the two-trade variant emits a second (reversal) trade for
a session, that trade's entry price is the first trade's exit price, its
entry timestamp is the first trade's exit timestamp, and its direction is
the opposite of the first trade's. -/
theorem claim_C3 (pct slp : ℚ) (d : Nat) (s : List Candle) (t1 t2 : Trade)
    (h : simulateDay2 pct slp d s = [t1, t2]) :
    t2.Entry = t1.Exit ∧ t2.EntryTime = t1.ExitTime ∧
    t2.ttype = opposite t1.ttype := by
  rcases sim2_cases pct slp d s with hnil | ⟨f, rest, tg, _, _, t1', ht1', hc⟩
  · rw [hnil] at h
    simp at h
  · rcases hc with ⟨_, hout⟩ | ⟨_, hout⟩
    · rw [hout] at h
      rw [List.cons.injEq] at h
      simp at h
    · rw [hout] at h
      rw [List.cons.injEq, List.cons.injEq] at h
      obtain ⟨h1, h2, _⟩ := h
      subst h1
      rw [← h2, reversalTrade_eq]
      exact ⟨rfl, rfl, rfl⟩

theorem claim_C3_witness :
    exTrade2.Entry = exTrade1.Exit ∧ exTrade2.EntryTime = exTrade1.ExitTime ∧
    exTrade2.ttype = opposite exTrade1.ttype :=
  claim_C3 (1/100) (5/1000) 0 exDf exTrade1 exTrade2 (by
    norm_num [simulateDay2, exDf, firstTrigger, trade1Of, reversalTrade, opposite,
      manageExit, afterTs, findStop, stopLevel, tslt, exTrade1, exTrade2]
    decide)

/-- C4: every emitted trade satisfies `PnL = Exit - Entry` for LONG and
`PnL = Entry - Exit` for SHORT; and on the literal example session (open
100, pct 1%, sl 0.5%, a candle with high 101.5, a later candle with low
100.4) the single-trade variant produces exactly the LONG trade entered at
101, stopped out at 100.495, with PnL −0.505. -/
theorem claim_C4 :
    (∀ (df : List Candle) (pct : ℚ) (sl_pct : Option ℚ) (st et : Nat),
      (∀ t ∈ (backtest_intraday_open_breakout df pct sl_pct st et).1,
        t.PnL = if t.ttype = .LONG then t.Exit - t.Entry else t.Entry - t.Exit) ∧
      (∀ t ∈ (backtest_intraday_open_breakout2 df pct sl_pct st et).1,
        t.PnL = if t.ttype = .LONG then t.Exit - t.Entry else t.Entry - t.Exit)) ∧
    stopLevel .LONG 101 (5/1000) = 100.495 ∧
    (backtest_intraday_open_breakout exDf (1/100) (some (5/1000)) 0 1440).1 =
      [exTrade1] ∧
    exTrade1.Entry = 101 ∧ exTrade1.Exit = 100.495 ∧ exTrade1.PnL = -0.505 ∧
    exTrade1.StopHit = true ∧ exTrade1.ttype = .LONG := by
  refine ⟨?_, by norm_num [stopLevel], ?_, by norm_num [exTrade1], by norm_num [exTrade1],
    by norm_num [exTrade1], rfl, rfl⟩
  · intro df pct sl_pct st et
    constructor
    · intro t ht
      obtain ⟨p, _, hOK⟩ := backtest1_TradeOK ht
      exact hOK.2.2.2.2.2.2
    · intro t ht
      obtain ⟨p, _, hOK⟩ := backtest2_TradeOK ht
      exact hOK.2.2.2.2.2.2
  · norm_num [backtest_intraday_open_breakout, ledger1, sessions, sortByTime, sortByB,
      insertLe, tsle, exDf, groupByDay, betweenTime, simulateDay1, firstTrigger, trade1Of,
      manageExit, afterTs, findStop, stopLevel, tslt, exTrade1, leDate]

theorem claim_C4_witness :
    exTrade1.PnL = (if exTrade1.ttype = .LONG then exTrade1.Exit - exTrade1.Entry
      else exTrade1.Entry - exTrade1.Exit) :=
  (claim_C4.1 exDf (1/100) (some (5/1000)) 0 1440).1 exTrade1 (by
    norm_num [backtest_intraday_open_breakout, ledger1, sessions, sortByTime, sortByB,
      insertLe, tsle, exDf, groupByDay, betweenTime, simulateDay1, firstTrigger, trade1Of,
      manageExit, afterTs, findStop, stopLevel, tslt, exTrade1, leDate])

/-- C5: the returned `Max_Drawdown` is never positive, and it is zero
whenever the cumulative P&L curve (running sums of the returned table's
PnL column) is non-decreasing — in particular on an empty ledger, where it
is defined as 0. -/
theorem claim_C5 (df : List Candle) (pct : ℚ) (sl_pct : Option ℚ) (st et : Nat) :
    ((backtest_intraday_open_breakout df pct sl_pct st et).2.Max_Drawdown ≤ 0 ∧
      (List.Chain' (fun a b => a ≤ b)
          (cumsum ((backtest_intraday_open_breakout df pct sl_pct st et).1.map
            (fun t => t.PnL))) →
        (backtest_intraday_open_breakout df pct sl_pct st et).2.Max_Drawdown = 0)) ∧
    ((backtest_intraday_open_breakout2 df pct sl_pct st et).2.Max_Drawdown ≤ 0 ∧
      (List.Chain' (fun a b => a ≤ b)
          (cumsum ((backtest_intraday_open_breakout2 df pct sl_pct st et).1.map
            (fun t => t.PnL))) →
        (backtest_intraday_open_breakout2 df pct sl_pct st et).2.Max_Drawdown = 0)) := by
  constructor
  · simp only [backtest_intraday_open_breakout]
    split
    · exact ⟨le_of_eq rfl, fun _ => rfl⟩
    · exact ⟨computeMetrics_dd_nonpos _, fun h => computeMetrics_dd_zero h⟩
  · simp only [backtest_intraday_open_breakout2]
    split
    · exact ⟨le_of_eq rfl, fun _ => rfl⟩
    · exact ⟨computeMetrics_dd_nonpos _, fun h => computeMetrics_dd_zero h⟩

theorem claim_C5_witness :
    (backtest_intraday_open_breakout exDf (1/100) (some (5/1000)) 0 1440).2.Max_Drawdown
        ≤ 0 ∧
    (backtest_intraday_open_breakout exDf (1/100) (some (5/1000)) 0 1440).2.Max_Drawdown
        = 0 :=
  ⟨(claim_C5 exDf (1/100) (some (5/1000)) 0 1440).1.1,
   (claim_C5 exDf (1/100) (some (5/1000)) 0 1440).1.2 (by
      norm_num [backtest_intraday_open_breakout, ledger1, sessions, sortByTime, sortByB,
        insertLe, tsle, exDf, groupByDay, betweenTime, simulateDay1, firstTrigger,
        trade1Of, manageExit, afterTs, findStop, stopLevel, tslt, leDate, cumsum,
        cumsumAux])⟩

/-- C6: a run that produces zero trades — in particular one on empty
input — returns the empty trade table together with the literal metrics
`{Total_PnL: 0, Max_Drawdown: 0, Total_Trades: 0, Win_Rate_pct: 0,
Avg_PnL: 0}`, in both variants, without an error path. -/
theorem claim_C6 (df : List Candle) (pct : ℚ) (sl_pct : Option ℚ) (st et : Nat) :
    (ledger1 df pct (sl_pct.getD pct) st et = [] →
      backtest_intraday_open_breakout df pct sl_pct st et = ([], emptyMetrics)) ∧
    (ledger2 df pct (sl_pct.getD pct) st et = [] →
      backtest_intraday_open_breakout2 df pct sl_pct st et = ([], emptyMetrics)) ∧
    backtest_intraday_open_breakout [] pct sl_pct st et = ([], emptyMetrics) ∧
    backtest_intraday_open_breakout2 [] pct sl_pct st et = ([], emptyMetrics) := by
  refine ⟨?_, ?_, rfl, rfl⟩
  · intro h
    simp only [backtest_intraday_open_breakout, h]
    rfl
  · intro h
    simp only [backtest_intraday_open_breakout2, h]
    rfl

theorem claim_C6_witness :
    backtest_intraday_open_breakout quietDf (1/100) none 0 1440 = ([], emptyMetrics) :=
  (claim_C6 quietDf (1/100) none 0 1440).1 (by
    norm_num [ledger1, sessions, sortByTime, sortByB, insertLe, tsle, quietDf,
      groupByDay, betweenTime, simulateDay1, firstTrigger])

/-- C7: when the first candle of a session that touches either trigger
touches both at once (`high ≥ long_trigger` and `low ≤ short_trigger`),
both variants enter LONG at `long_trigger` — the LONG branch wins the
`if`/`elif`. -/
theorem claim_C7 (pct slp : ℚ) (d : Nat) (f : Candle) (rest pre post : List Candle)
    (c : Candle) (hsplit : f :: rest = pre ++ c :: post)
    (hpre : ∀ x ∈ pre, x.high < f.open_ * (1 + pct) ∧ f.open_ * (1 - pct) < x.low)
    (hlong : f.open_ * (1 + pct) ≤ c.high)
    (hshort : c.low ≤ f.open_ * (1 - pct)) :
    (∃ t1 r1, simulateDay1 pct slp d (f :: rest) = t1 :: r1 ∧
      t1.ttype = .LONG ∧ t1.Entry = f.open_ * (1 + pct)) ∧
    (∃ t2 r2, simulateDay2 pct slp d (f :: rest) = t2 :: r2 ∧
      t2.ttype = .LONG ∧ t2.Entry = f.open_ * (1 + pct)) := by
  have htg : firstTrigger (f.open_ * (1 + pct)) (f.open_ * (1 - pct)) (f :: rest) =
      some ⟨c.time, .LONG, f.open_ * (1 + pct)⟩ := by
    rw [hsplit]
    exact firstTrigger_long post hpre hlong
  constructor
  · refine ⟨trade1Of slp d (f :: rest) (List.getLastD rest f)
      ⟨c.time, .LONG, f.open_ * (1 + pct)⟩, [], ?_, rfl, rfl⟩
    simp only [simulateDay1, htg]
  · by_cases hst : (trade1Of slp d (f :: rest) (List.getLastD rest f)
        ⟨c.time, .LONG, f.open_ * (1 + pct)⟩).StopHit = true
    · refine ⟨trade1Of slp d (f :: rest) (List.getLastD rest f)
        ⟨c.time, .LONG, f.open_ * (1 + pct)⟩,
        [reversalTrade slp d
          (trade1Of slp d (f :: rest) (List.getLastD rest f)
            ⟨c.time, .LONG, f.open_ * (1 + pct)⟩).ttype
          (trade1Of slp d (f :: rest) (List.getLastD rest f)
            ⟨c.time, .LONG, f.open_ * (1 + pct)⟩).Exit
          (trade1Of slp d (f :: rest) (List.getLastD rest f)
            ⟨c.time, .LONG, f.open_ * (1 + pct)⟩).ExitTime
          (f :: rest) (List.getLastD rest f)], ?_, rfl, rfl⟩
      simp only [simulateDay2, htg]
      rw [if_pos ⟨hst, by norm_num⟩]
    · refine ⟨trade1Of slp d (f :: rest) (List.getLastD rest f)
        ⟨c.time, .LONG, f.open_ * (1 + pct)⟩, [], ?_, rfl, rfl⟩
      simp only [simulateDay2, htg]
      rw [if_neg (by intro hc2; exact hst hc2.1)]

theorem claim_C7_witness :
    (∃ t1 r1, simulateDay1 (1/100) (5/1000) 0 [exC7] = t1 :: r1 ∧
      t1.ttype = .LONG ∧ t1.Entry = exC7.open_ * (1 + 1/100)) ∧
    (∃ t2 r2, simulateDay2 (1/100) (5/1000) 0 [exC7] = t2 :: r2 ∧
      t2.ttype = .LONG ∧ t2.Entry = exC7.open_ * (1 + 1/100)) :=
  claim_C7 (1/100) (5/1000) 0 exC7 [] [] [] exC7 rfl (by simp)
    (by norm_num [exC7]) (by norm_num [exC7])

/-- C8, corrected: the pandas mask compares timestamps against the parsed
date strings, i.e. against midnight of `start_date` and midnight of
`end_date`; a candle later in the day on the end date is excluded, so the
range is not inclusive of all candles on both boundary dates.  Here a
candle on calendar day 5 (the end date) is dropped. -/
theorem claim_C8_counterexample :
    4 ≤ (Candle.mk ⟨5, 10⟩ 1 2 3 4).time.day ∧
    (Candle.mk ⟨5, 10⟩ 1 2 3 4).time.day ≤ 5 ∧
    filter_by_date [Candle.mk ⟨5, 10⟩ 1 2 3 4] 4 5 = [] := by
  refine ⟨by norm_num, by norm_num, ?_⟩
  norm_num [filter_by_date, tsle]

/-- C8, amended: `filter_by_date` returns exactly the rows whose timestamp
lies in the closed interval from midnight of `start_date` to midnight of
`end_date` (hence every candle of the start date but only a midnight
candle of the end date), in their original order, without touching the
input. -/
theorem claim_C8_amended (df : List Candle) (start_date end_date : Nat) :
    (filter_by_date df start_date end_date).Sublist df ∧
    ∀ c : Candle, c ∈ filter_by_date df start_date end_date ↔
      c ∈ df ∧ tsle ⟨start_date, 0⟩ c.time ∧ tsle c.time ⟨end_date, 0⟩ := by
  refine ⟨List.filter_sublist df, fun c => ?_⟩
  simp [filter_by_date, List.mem_filter, and_assoc]

/-- C9: both returned trade tables are ordered by entry timestamp
ascending across the whole run. -/
theorem claim_C9 (df : List Candle) (pct : ℚ) (sl_pct : Option ℚ) (st et : Nat) :
    ((backtest_intraday_open_breakout df pct sl_pct st et).1).Pairwise
      (fun a b => tsle a.EntryTime b.EntryTime) ∧
    ((backtest_intraday_open_breakout2 df pct sl_pct st et).1).Pairwise
      (fun a b => tsle a.EntryTime b.EntryTime) :=
  ⟨backtest1_sorted_entry df pct sl_pct st et,
   backtest2_sorted_entry df pct sl_pct st et⟩

/-- C10: every emitted trade exits no earlier than it enters, both its
timestamps carry the trade's calendar day and lie inside the session's
time-of-day window, and a trade triggered on its session's last candle
exits at its own entry timestamp. -/
theorem claim_C10 (df : List Candle) (pct : ℚ) (sl_pct : Option ℚ) (st et : Nat) :
    (∀ t ∈ (backtest_intraday_open_breakout df pct sl_pct st et).1,
      tsle t.EntryTime t.ExitTime ∧
      t.EntryTime.day = t.Date ∧ t.ExitTime.day = t.Date ∧
      st ≤ t.EntryTime.tod ∧ t.EntryTime.tod ≤ et ∧
      st ≤ t.ExitTime.tod ∧ t.ExitTime.tod ≤ et ∧
      ∃ p ∈ sessions df st et, ∃ f rest, p.2 = f :: rest ∧ t.Date = p.1 ∧
        (t.EntryTime = (List.getLastD rest f).time → t.ExitTime = t.EntryTime)) ∧
    (∀ t ∈ (backtest_intraday_open_breakout2 df pct sl_pct st et).1,
      tsle t.EntryTime t.ExitTime ∧
      t.EntryTime.day = t.Date ∧ t.ExitTime.day = t.Date ∧
      st ≤ t.EntryTime.tod ∧ t.EntryTime.tod ≤ et ∧
      st ≤ t.ExitTime.tod ∧ t.ExitTime.tod ≤ et ∧
      ∃ p ∈ sessions df st et, ∃ f rest, p.2 = f :: rest ∧ t.Date = p.1 ∧
        (t.EntryTime = (List.getLastD rest f).time → t.ExitTime = t.EntryTime)) := by
  have main : ∀ (p : Nat × List Candle), p ∈ sessions df st et → ∀ (slp : ℚ) (t : Trade),
      TradeOK slp p.1 p.2 t →
      tsle t.EntryTime t.ExitTime ∧
      t.EntryTime.day = t.Date ∧ t.ExitTime.day = t.Date ∧
      st ≤ t.EntryTime.tod ∧ t.EntryTime.tod ≤ et ∧
      st ≤ t.ExitTime.tod ∧ t.ExitTime.tod ≤ et ∧
      ∃ p ∈ sessions df st et, ∃ f rest, p.2 = f :: rest ∧ t.Date = p.1 ∧
        (t.EntryTime = (List.getLastD rest f).time → t.ExitTime = t.EntryTime) := by
    intro p hp slp t hOK
    obtain ⟨hne, hpw, hmem⟩ := sessions_props hp
    obtain ⟨ce, hce, hcet⟩ := hOK.2.1
    obtain ⟨cx, hcx, hcxt⟩ := hOK.2.2.1
    have he := hmem ce hce
    have hx := hmem cx hcx
    refine ⟨hOK.2.2.2.1, ?_, ?_, ?_, ?_, ?_, ?_, ?_⟩
    · rw [← hcet, he.1, hOK.1]
    · rw [← hcxt, hx.1, hOK.1]
    · rw [← hcet]; exact he.2.1
    · rw [← hcet]; exact he.2.2
    · rw [← hcxt]; exact hx.2.1
    · rw [← hcxt]; exact hx.2.2
    · obtain ⟨f, rest, hfr⟩ := List.exists_cons_of_ne_nil hne
      exact ⟨p, hp, f, rest, hfr, hOK.1,
        fun h => (hOK.2.2.2.2.2.1 f rest hfr).2 h⟩
  constructor
  · intro t ht
    obtain ⟨p, hp, hsim⟩ := mem_backtest1 ht
    exact main p hp _ t (sim1_TradeOK (sessions_props hp).2.1 hsim)
  · intro t ht
    obtain ⟨p, hp, hsim⟩ := mem_backtest2 ht
    exact main p hp _ t (sim2_TradeOK (sessions_props hp).2.1 hsim)

theorem claim_C10_witness :
    tsle exTrade1.EntryTime exTrade1.ExitTime ∧
    exTrade1.EntryTime.day = exTrade1.Date ∧ exTrade1.ExitTime.day = exTrade1.Date ∧
    0 ≤ exTrade1.EntryTime.tod ∧ exTrade1.EntryTime.tod ≤ 1440 ∧
    0 ≤ exTrade1.ExitTime.tod ∧ exTrade1.ExitTime.tod ≤ 1440 ∧
    ∃ p ∈ sessions exDf 0 1440, ∃ f rest, p.2 = f :: rest ∧ exTrade1.Date = p.1 ∧
      (exTrade1.EntryTime = (List.getLastD rest f).time →
        exTrade1.ExitTime = exTrade1.EntryTime) :=
  (claim_C10 exDf (1/100) (some (5/1000)) 0 1440).1 exTrade1 (by
    norm_num [backtest_intraday_open_breakout, ledger1, sessions, sortByTime, sortByB,
      insertLe, tsle, exDf, groupByDay, betweenTime, simulateDay1, firstTrigger, trade1Of,
      manageExit, afterTs, findStop, stopLevel, tslt, exTrade1, leDate])
